import Mathlib

/-!
Verification of the connection-multiplexing core of `aws_lambda_runtime`
(`src/aws_lambda_runtime/src/server.rs`).

The session loop of `Connection` (decode phase, dispatch-completion phase,
encode phase), the `Invocation` future and the `Server` accept loop are
embedded as pure step functions.  The external collaborators that are not
part of the sources (the `proto` codec message algebra and the ambient
`Context` scope) are modelled from the spec's interface contract (spec
sections 3, 4.4 and 6); everything else is translated directly from
`server.rs`.
-/

namespace AwsLambdaRuntime

/-- Modelled from the spec: the ambient `Context` (spec section 4.4) carried by an
`Invoke` request; `context.rs` is not among the sources.  It exposes at least a
deadline and per-request metadata, here one field of each. -/
structure Context where
  deadline : Nat
  meta : Nat
deriving DecidableEq, Repr

/-- Modelled from the spec: `Context::with(scope, body)` installs `scope` as the
currently-visible ambient context and runs `body` under it (spec section 4.4).
In the shallow embedding the ambient context is passed explicitly to the body. -/
def Context.with (c : Context) (body : Context → α) : α :=
  body c

/-- Modelled from the spec: `proto::Request` (spec section 3); `proto.rs` is not
among the sources.  Payloads are represented by `Nat`. -/
inductive Request where
  | ping (seq : Nat)
  | invoke (seq : Nat) (deadline : Nat) (ctx : Context) (payload : Nat)
deriving DecidableEq, Repr

deriving instance DecidableEq for Except

/-- Modelled from the spec: `proto::Response` (spec section 3).  The outcome of an
`Invoke` is success-with-payload or failure-with-error, both `Nat` here. -/
inductive Response where
  | ping (seq : Nat)
  | invoke (seq : Nat) (result : Except Nat Nat)
deriving DecidableEq, Repr

/-- Modelled from the spec: one poll outcome of the codec's decode half
(spec sections 3 and 6).  A decoder is a script of such events; an exhausted
script is the stream end (`Ok(Async::Ready(None))`). -/
inductive DecoderEvent where
  | item (r : Request)
  | notReady
  | userErr (seq : Nat) (err : Nat)
  | frameErr (err : Nat)
deriving DecidableEq, Repr

/-- The handler's pending future: a number of polls before it resolves, the
outcome it resolves to (a function of the ambient context visible at the
resolving poll), and the ambient contexts it observed at each pending poll
(instrumentation for the context-scoping claims). -/
structure HFuture where
  fuel : Nat
  res : Context → Except Nat Nat
  observed : List Context

/-- Result of polling a handler future: still pending, resolved with a success
value, or failed with the handler's declared error. -/
inductive HPoll where
  | notReady (f : HFuture)
  | ready (v : Nat)
  | err (e : Nat)

/-- One poll of the handler future under ambient context `amb`. -/
def HFuture.poll (amb : Context) (f : HFuture) : HPoll :=
  match f.fuel with
  | n + 1 => .notReady { f with fuel := n, observed := f.observed ++ [amb] }
  | 0 =>
    match f.res amb with
    | .ok v => .ready v
    | .error e => .err e

/-- The handler (`tower_service::Service`): per payload, how many polls its
future takes and what outcome it resolves to under the ambient context seen at
resolution. -/
structure Service where
  fuel : Nat → Nat
  res : Nat → Context → Except Nat Nat

/-- `service.call(payload)`, executed under ambient context `amb` (the call in
`server.rs` line 148 happens inside `ctx.with`); the created future records the
ambient context it was created under as its first observation. -/
def Service.call (svc : Service) (amb : Context) (payload : Nat) : HFuture :=
  { fuel := svc.fuel payload, res := svc.res payload, observed := [amb] }

/-- `Invocation` (server.rs lines 198-202): sequence number, pending handler
future, and the context scope active when the call was made. -/
structure Invocation where
  seq : Nat
  future : HFuture
  ctx : Context

/-- Result of polling an `Invocation`: pending (with updated future state) or a
terminal `(seq, result)` pair.  There is no error alternative, mirroring the
`Void` error type of `impl Future for Invocation`. -/
inductive IPoll where
  | notReady (inv : Invocation)
  | ready (seq : Nat) (result : Except Nat Nat)

/-- `impl Future for Invocation` (server.rs lines 211-219): poll the wrapped
future inside `self.ctx.with`, turning a success into `(seq, Ok(res))` and a
handler error into `(seq, Err(err))`. -/
def Invocation.poll (inv : Invocation) : IPoll :=
  Context.with inv.ctx fun amb =>
    match inv.future.poll amb with
    | .notReady f => .notReady { inv with future := f }
    | .ready v => .ready inv.seq (.ok v)
    | .err e => .ready inv.seq (.error e)

/-- `Connection::poll_futures` (server.rs lines 127-136): drain the
`FuturesUnordered` set; every resolved invocation is removed and its response
`start_send`-ed to the encoder buffer, pending ones stay.  Returns the pending
set and the grown buffer; the phase is ready exactly when the pending set is
empty. -/
def pollFutures : List Invocation → List Response → List Invocation × List Response
  | [], buf => ([], buf)
  | inv :: rest, buf =>
    match inv.poll with
    | .notReady inv' =>
      let (pend, buf') := pollFutures rest buf
      (inv' :: pend, buf')
    | .ready seq r => pollFutures rest (buf ++ [.invoke seq r])

/-- Outcome of one decode phase: the remaining decoder script, the in-flight
set and encoder buffer after the phase, and whether the decoder signalled
stream end (`eof = true`) or only "no further progress right now". -/
structure DecodeRes where
  script : List DecoderEvent
  futures : List Invocation
  buf : List Response
  eof : Bool
deriving Inhabited

/-- `Connection::poll_decoder` (server.rs lines 138-169): repeatedly pull the
next decoder event.  `Ping(seq)` enqueues `Response::Ping(seq)` and continues;
`Invoke(seq, _deadline, ctx, payload)` calls the service inside `ctx.with`
(the deadline is dropped, as in the source: `_deadline`, "TODO: enforce
deadline"), pushes the `Invocation` and continues; `DecodeError::User(seq, e)`
enqueues `Response::Invoke(seq, Err(e))` and continues; `NotReady` and stream
end stop the phase; `DecodeError::Frame(e)` fails the phase. -/
def pollDecoder (svc : Service) :
    List DecoderEvent → List Invocation → List Response → Except Nat DecodeRes
  | [], futs, buf => .ok ⟨[], futs, buf, true⟩
  | ev :: rest, futs, buf =>
    match ev with
    | .item (.ping s) => pollDecoder svc rest futs (buf ++ [.ping s])
    | .item (.invoke s _dl ctx p) =>
      let fut := Context.with ctx fun amb => svc.call amb p
      pollDecoder svc rest (futs ++ [⟨s, fut, ctx⟩]) buf
    | .notReady => .ok ⟨rest, futs, buf, false⟩
    | .userErr s e => pollDecoder svc rest futs (buf ++ [.invoke s (.error e)])
    | .frameErr e => .error e

/-- State of one `Connection` session: the decoder's remaining event script,
the in-flight invocation set, the encoder's outgoing buffer, and the responses
already flushed to the transport. -/
structure Conn where
  script : List DecoderEvent
  futures : List Invocation
  encBuf : List Response
  sent : List Response

/-- Fresh session on a new transport connection (`Connection::spawn`). -/
def Conn.init (script : List DecoderEvent) : Conn :=
  ⟨script, [], [], []⟩

/-- How many buffered responses `poll_complete` manages to flush this pass:
`none` is an unconstrained transport (flush everything), `some k` is
backpressure after `k` items. -/
def flushCount (cap : Option Nat) (n : Nat) : Nat :=
  cap.getD n

/-- The two later phases of a scheduling pass, run after a successful decode
phase: poll the futures (they might create work for the encoder), then poll the
encoder.  Ready exactly when all three phases are ready (server.rs lines
184-194). -/
def finishPass (cap : Option Nat) (c : Conn) (d : DecodeRes) : Conn × Bool :=
  let fr := pollFutures d.futures d.buf
  let k := flushCount cap fr.2.length
  (⟨d.script, fr.1, fr.2.drop k, c.sent ++ fr.2.take k⟩,
    d.eof && fr.1.isEmpty && (fr.2.drop k).isEmpty)

/-- `impl Future for Connection` (server.rs lines 182-195): poll the decoder
first (it may create work for futures and encoder); a frame error from the
decode phase propagates immediately, before the dispatch-completion and encode
phases run; otherwise the pass continues with the two later phases. -/
def Connection.poll (svc : Service) (cap : Option Nat) (c : Conn) :
    Except Nat (Conn × Bool) :=
  match pollDecoder svc c.script c.futures c.encBuf with
  | .error e => .error e
  | .ok d => .ok (finishPass cap c d)

/-- Final status of driving one session: completed cleanly, failed with a
connection-fatal error (carrying the state at the failing pass, whose `sent`
list is everything ever flushed), or ran out of scheduling fuel. -/
inductive RunResult where
  | done (c : Conn)
  | failed (e : Nat) (c : Conn)
  | outOfFuel (c : Conn)

/-- Drive a session: repeat `Connection.poll` (consuming one flush capacity per
pass) until it reports ready or fails, for at most `n` passes. -/
def run (svc : Service) : List (Option Nat) → Nat → Conn → RunResult
  | _, 0, c => .outOfFuel c
  | caps, n + 1, c =>
    match Connection.poll svc (caps.headD none) c with
    | .error e => .failed e c
    | .ok (c', true) => .done c'
    | .ok (c', false) => run svc caps.tail n c'

/-- All responses ever flushed to the transport by the time the run ended. -/
def RunResult.sentOf : RunResult → List Response
  | .done c => c.sent
  | .failed _ c => c.sent
  | .outOfFuel c => c.sent

/-- The response a decoder event is answered with, when it is answered at all:
a `Ping` is echoed, an `Invoke` resolves to the service outcome for its payload
under its own context, a user decode error is answered with a failed
invocation; `notReady` and a frame error produce no response. -/
def Service.expected (svc : Service) : DecoderEvent → Option Response
  | .item (.ping s) => some (.ping s)
  | .item (.invoke s _dl ctx p) => some (.invoke s (svc.res p ctx))
  | .notReady => none
  | .userErr s e => some (.invoke s (.error e))
  | .frameErr _ => none

/-- The response an in-flight invocation will contribute when it resolves:
its own `seq`, with the future's outcome evaluated under the invocation's own
context scope. -/
def Invocation.expected (inv : Invocation) : Response :=
  .invoke inv.seq (inv.future.res inv.ctx)

/-- Correlation key of a response: which of the two response kinds it is,
together with its sequence number. -/
def Response.key : Response → Bool × Nat
  | .ping s => (true, s)
  | .invoke s _ => (false, s)

/-- Correlation key of the response a decoder event demands, if any. -/
def DecoderEvent.key : DecoderEvent → Option (Bool × Nat)
  | .item (.ping s) => some (true, s)
  | .item (.invoke s _ _ _) => some (false, s)
  | .notReady => none
  | .userErr s _ => some (false, s)
  | .frameErr _ => none

/-- The session ledger: every response the session still owes or has already
produced — flushed responses, buffered responses, the eventual responses of
in-flight invocations, and the responses demanded by the unconsumed decoder
script.  Scheduling passes conserve this multiset. -/
def Conn.ledger (svc : Service) (c : Conn) : Multiset Response :=
  ↑c.sent + ↑c.encBuf + ↑(c.futures.map Invocation.expected)
    + ↑(c.script.filterMap svc.expected)

/-- Complete characterization of one `Invocation` poll: with fuel left, the
poll stays pending, recording one more observation of the invocation's own
context scope; with no fuel left, it resolves to its own `seq` with the
outcome of its resolution function evaluated under its own context scope. -/
theorem Invocation.poll_spec (inv : Invocation) :
    (∃ n, inv.future.fuel = n + 1 ∧
        inv.poll = .notReady
          ⟨inv.seq, ⟨n, inv.future.res, inv.future.observed ++ [inv.ctx]⟩, inv.ctx⟩) ∨
      (inv.future.fuel = 0 ∧ inv.poll = .ready inv.seq (inv.future.res inv.ctx)) := by
  rcases hf : inv.future.fuel with _ | n
  · right
    refine ⟨rfl, ?_⟩
    rcases hr : inv.future.res inv.ctx with v | e <;>
      simp [Invocation.poll, Context.with, HFuture.poll, hf, hr]
  · left
    exact ⟨n, rfl, by simp [Invocation.poll, Context.with, HFuture.poll, hf]⟩

/-- Unfolding equation: the dispatch-completion phase keeps a pending head
invocation (in its updated state) and recurses. -/
theorem pollFutures_cons_notReady {inv inv' : Invocation} {rest : List Invocation}
    {b : List Response} (hp : inv.poll = .notReady inv') :
    pollFutures (inv :: rest) b
      = (inv' :: (pollFutures rest b).1, (pollFutures rest b).2) := by
  simp [pollFutures, hp]

/-- Unfolding equation: the dispatch-completion phase removes a resolved head
invocation, sends its response to the encoder buffer, and recurses. -/
theorem pollFutures_cons_ready {inv : Invocation} {rest : List Invocation}
    {b : List Response} {s : Nat} {r : Except Nat Nat}
    (hp : inv.poll = .ready s r) :
    pollFutures (inv :: rest) b = pollFutures rest (b ++ [.invoke s r]) := by
  simp [pollFutures, hp]

/-- The dispatch-completion phase conserves the ledger: the responses of the
invocations it removes from the in-flight set appear in the encoder buffer. -/
theorem pollFutures_ledger (f : List Invocation) (b : List Response) :
    (↑(pollFutures f b).2 + ↑((pollFutures f b).1.map Invocation.expected)
        : Multiset Response)
      = ↑b + ↑(f.map Invocation.expected) := by
  induction f generalizing b with
  | nil => simp [pollFutures]
  | cons inv rest ih =>
    rcases Invocation.poll_spec inv with ⟨n, hf, hp⟩ | ⟨hf, hp⟩
    · rw [pollFutures_cons_notReady hp]
      ext x
      have hx := congrArg (Multiset.count x) (ih b)
      simp only [Multiset.count_add, Multiset.coe_count] at hx
      simp [Multiset.count_add, Multiset.coe_count, List.count_cons,
        Invocation.expected, hx]
      omega
    · rw [pollFutures_cons_ready hp]
      ext x
      have hx := congrArg (Multiset.count x) (ih (b ++ [Response.invoke inv.seq
        (inv.future.res inv.ctx)]))
      simp only [Multiset.count_add, Multiset.coe_count, List.count_append] at hx
      simp [Multiset.count_add, Multiset.coe_count, List.count_append,
        List.count_cons, Invocation.expected, hx]
      omega

/-- The error payload of the first frame error in a decoder script, if any. -/
def firstFrame : List DecoderEvent → Option Nat
  | [] => none
  | .frameErr e :: _ => some e
  | _ :: rest => firstFrame rest

/-- The decode phase conserves the ledger: the requests it consumes from the
script reappear either as buffered responses (pings, user decode errors) or as
in-flight invocations (invokes). -/
theorem pollDecoder_ledger (svc : Service) (s : List DecoderEvent) (f : List Invocation)
    (b : List Response) (d : DecodeRes) (h : pollDecoder svc s f b = .ok d) :
    (↑d.buf + ↑(d.futures.map Invocation.expected) + ↑(d.script.filterMap svc.expected)
        : Multiset Response)
      = ↑b + ↑(f.map Invocation.expected) + ↑(s.filterMap svc.expected) := by
  induction s generalizing f b with
  | nil =>
    simp only [pollDecoder, Except.ok.injEq] at h
    subst h
    rfl
  | cons ev rest ih =>
    cases ev with
    | item r =>
      cases r with
      | ping sq =>
        simp only [pollDecoder] at h
        have hx := ih _ _ h
        ext x
        have hc := congrArg (Multiset.count x) hx
        simp only [Multiset.count_add, Multiset.coe_count, List.count_append,
          List.count_cons, List.count_nil, beq_iff_eq] at hc
        simp [Multiset.count_add, Multiset.coe_count, List.count_append,
          List.count_cons, Service.expected, hc]
        omega
      | invoke sq dl ctx p =>
        simp only [pollDecoder, Context.with] at h
        have hx := ih _ _ h
        ext x
        have hc := congrArg (Multiset.count x) hx
        simp only [Multiset.count_add, Multiset.coe_count, List.count_append,
          List.map_append, List.map_cons, List.map_nil, List.count_cons,
          List.count_nil, Invocation.expected, Service.call, beq_iff_eq] at hc
        simp [Multiset.count_add, Multiset.coe_count, List.count_append,
          List.count_cons, Service.expected, Service.call, Invocation.expected, hc]
        omega
    | notReady =>
      simp only [pollDecoder, Except.ok.injEq] at h
      subst h
      simp [Service.expected]
    | userErr sq e =>
      simp only [pollDecoder] at h
      have hx := ih _ _ h
      ext x
      have hc := congrArg (Multiset.count x) hx
      simp only [Multiset.count_add, Multiset.coe_count, List.count_append,
        List.count_cons, List.count_nil, beq_iff_eq] at hc
      simp [Multiset.count_add, Multiset.coe_count, List.count_append,
        List.count_cons, Service.expected, hc]
      omega
    | frameErr e => simp [pollDecoder] at h

/-- The decode phase reports stream end only with the script exhausted. -/
theorem pollDecoder_eof {svc : Service} {s : List DecoderEvent} {f : List Invocation}
    {b : List Response} {d : DecodeRes} (h : pollDecoder svc s f b = .ok d)
    (he : d.eof = true) : d.script = [] := by
  induction s generalizing f b with
  | nil =>
    simp only [pollDecoder, Except.ok.injEq] at h
    subst h
    rfl
  | cons ev rest ih =>
    cases ev with
    | item r =>
      cases r with
      | ping sq => exact ih (by simpa [pollDecoder] using h)
      | invoke sq dl ctx p => exact ih (by simpa [pollDecoder, Context.with] using h)
    | notReady =>
      simp only [pollDecoder, Except.ok.injEq] at h
      subst h
      simp at he
    | userErr sq e => exact ih (by simpa [pollDecoder] using h)
    | frameErr e => simp [pollDecoder] at h

/-- A failing decode phase fails with the script's first frame error. -/
theorem pollDecoder_error {svc : Service} {s : List DecoderEvent} {f : List Invocation}
    {b : List Response} {e : Nat} (h : pollDecoder svc s f b = .error e) :
    firstFrame s = some e := by
  induction s generalizing f b with
  | nil => simp [pollDecoder] at h
  | cons ev rest ih =>
    cases ev with
    | item r =>
      cases r with
      | ping sq => exact ih (by simpa [pollDecoder] using h)
      | invoke sq dl ctx p => exact ih (by simpa [pollDecoder, Context.with] using h)
    | notReady => simp [pollDecoder] at h
    | userErr sq e' => exact ih (by simpa [pollDecoder] using h)
    | frameErr e' =>
      simp only [pollDecoder, Except.error.injEq] at h
      simp [firstFrame, h]

/-- A successful decode phase consumes no frame error: the first frame error
of the remaining script is that of the original script. -/
theorem pollDecoder_firstFrame {svc : Service} {s : List DecoderEvent}
    {f : List Invocation} {b : List Response} {d : DecodeRes}
    (h : pollDecoder svc s f b = .ok d) :
    firstFrame d.script = firstFrame s := by
  induction s generalizing f b with
  | nil =>
    simp only [pollDecoder, Except.ok.injEq] at h
    subst h
    rfl
  | cons ev rest ih =>
    cases ev with
    | item r =>
      cases r with
      | ping sq => simpa [firstFrame] using ih (by simpa [pollDecoder] using h)
      | invoke sq dl ctx p =>
        simpa [firstFrame] using ih (by simpa [pollDecoder, Context.with] using h)
    | notReady =>
      simp only [pollDecoder, Except.ok.injEq] at h
      subst h
      simp [firstFrame]
    | userErr sq e => simpa [firstFrame] using ih (by simpa [pollDecoder] using h)
    | frameErr e => simp [pollDecoder] at h

/-- A frame-error-free script decodes without failure. -/
theorem pollDecoder_ok_of_noframe (svc : Service) {s : List DecoderEvent}
    (f : List Invocation) (b : List Response) (hs : firstFrame s = none) :
    ∃ d, pollDecoder svc s f b = .ok d := by
  induction s generalizing f b with
  | nil => exact ⟨_, rfl⟩
  | cons ev rest ih =>
    cases ev with
    | item r =>
      cases r with
      | ping sq =>
        obtain ⟨d, hd⟩ := ih f (b ++ [.ping sq]) (by simpa [firstFrame] using hs)
        exact ⟨d, by simpa [pollDecoder] using hd⟩
      | invoke sq dl ctx p =>
        obtain ⟨d, hd⟩ := ih (f ++ [⟨sq, Service.call svc ctx p, ctx⟩]) b
          (by simpa [firstFrame] using hs)
        exact ⟨d, by simpa [pollDecoder, Context.with] using hd⟩
    | notReady => exact ⟨_, rfl⟩
    | userErr sq e =>
      obtain ⟨d, hd⟩ := ih f (b ++ [.invoke sq (.error e)])
        (by simpa [firstFrame] using hs)
      exact ⟨d, by simpa [pollDecoder] using hd⟩
    | frameErr e => simp [firstFrame] at hs

/-- Every event left unconsumed by a decode phase was in the original script. -/
theorem pollDecoder_script_sub {svc : Service} {s : List DecoderEvent}
    {f : List Invocation} {b : List Response} {d : DecodeRes}
    (h : pollDecoder svc s f b = .ok d) : ∀ ev ∈ d.script, ev ∈ s := by
  induction s generalizing f b with
  | nil =>
    simp only [pollDecoder, Except.ok.injEq] at h
    subst h
    simp
  | cons ev rest ih =>
    cases ev with
    | item r =>
      cases r with
      | ping sq =>
        intro x hx
        exact List.mem_cons_of_mem _ (ih (by simpa [pollDecoder] using h) x hx)
      | invoke sq dl ctx p =>
        intro x hx
        exact List.mem_cons_of_mem _
          (ih (by simpa [pollDecoder, Context.with] using h) x hx)
    | notReady =>
      simp only [pollDecoder, Except.ok.injEq] at h
      subst h
      intro x hx
      exact List.mem_cons_of_mem _ hx
    | userErr sq e =>
      intro x hx
      exact List.mem_cons_of_mem _ (ih (by simpa [pollDecoder] using h) x hx)
    | frameErr e => simp [pollDecoder] at h

/-- The remaining script after a pass is whatever the decode phase left. -/
theorem finishPass_script (cap : Option Nat) (c : Conn) (d : DecodeRes) :
    (finishPass cap c d).1.script = d.script := rfl

/-- The in-flight set after a pass is the pending part of the futures phase. -/
theorem finishPass_futures (cap : Option Nat) (c : Conn) (d : DecodeRes) :
    (finishPass cap c d).1.futures = (pollFutures d.futures d.buf).1 := rfl

/-- The encoder buffer after a pass is what the encode phase could not flush. -/
theorem finishPass_encBuf (cap : Option Nat) (c : Conn) (d : DecodeRes) :
    (finishPass cap c d).1.encBuf
      = (pollFutures d.futures d.buf).2.drop
          (flushCount cap (pollFutures d.futures d.buf).2.length) := rfl

/-- The flushed responses after a pass grow by what the encode phase flushed. -/
theorem finishPass_sent (cap : Option Nat) (c : Conn) (d : DecodeRes) :
    (finishPass cap c d).1.sent
      = c.sent ++ (pollFutures d.futures d.buf).2.take
          (flushCount cap (pollFutures d.futures d.buf).2.length) := rfl

/-- A pass is ready exactly when all three phases are. -/
theorem finishPass_snd (cap : Option Nat) (c : Conn) (d : DecodeRes) :
    (finishPass cap c d).2
      = (d.eof && (pollFutures d.futures d.buf).1.isEmpty
          && ((pollFutures d.futures d.buf).2.drop
                (flushCount cap (pollFutures d.futures d.buf).2.length)).isEmpty) := rfl

/-- The dispatch-completion and encode phases conserve the ledger. -/
theorem finishPass_ledger (svc : Service) (cap : Option Nat) (c : Conn) (d : DecodeRes) :
    ((finishPass cap c d).1).ledger svc
      = ↑c.sent + ↑d.buf + ↑(d.futures.map Invocation.expected)
          + ↑(d.script.filterMap svc.expected) := by
  ext x
  have hf := congrArg (Multiset.count x) (pollFutures_ledger d.futures d.buf)
  simp only [Multiset.count_add, Multiset.coe_count] at hf
  have htd : List.count x ((pollFutures d.futures d.buf).2.take
        (flushCount cap (pollFutures d.futures d.buf).2.length))
      + List.count x ((pollFutures d.futures d.buf).2.drop
        (flushCount cap (pollFutures d.futures d.buf).2.length))
      = List.count x (pollFutures d.futures d.buf).2 := by
    rw [← List.count_append, List.take_append_drop]
  simp only [Conn.ledger, finishPass_script, finishPass_futures, finishPass_encBuf,
    finishPass_sent, Multiset.count_add, Multiset.coe_count, List.count_append]
  omega

/-- A successful decode phase makes the whole pass succeed. -/
theorem Connection.poll_ok (cap : Option Nat) {svc : Service} {c : Conn} {d : DecodeRes}
    (hd : pollDecoder svc c.script c.futures c.encBuf = .ok d) :
    Connection.poll svc cap c = .ok (finishPass cap c d) := by
  simp [Connection.poll, hd]

/-- A failing decode phase fails the whole pass with the same error, before the
dispatch-completion and encode phases run. -/
theorem Connection.poll_error {svc : Service} {cap : Option Nat} {c : Conn} {e : Nat}
    (hd : pollDecoder svc c.script c.futures c.encBuf = .error e) :
    Connection.poll svc cap c = .error e := by
  simp [Connection.poll, hd]

/-- A non-failing scheduling pass conserves the ledger: every response owed is
still owed or already produced, and nothing is produced twice. -/
theorem Connection.poll_ledger {svc : Service} {cap : Option Nat} {c c' : Conn}
    {r : Bool} (h : Connection.poll svc cap c = .ok (c', r)) :
    c'.ledger svc = c.ledger svc := by
  cases hd : pollDecoder svc c.script c.futures c.encBuf with
  | error e => rw [Connection.poll_error hd] at h; cases h
  | ok d =>
    rw [Connection.poll_ok cap hd] at h
    injection h with h
    have hc' : c' = (finishPass cap c d).1 := by rw [h]
    subst hc'
    have h1 := finishPass_ledger svc cap c d
    have h2 := pollDecoder_ledger svc c.script c.futures c.encBuf d hd
    ext x
    have hc1 := congrArg (Multiset.count x) h1
    have hc2 := congrArg (Multiset.count x) h2
    simp only [Multiset.count_add, Multiset.coe_count, Conn.ledger] at hc1 hc2 ⊢
    omega

/-- A pass that reports ready leaves an exhausted script, an empty in-flight
set and a fully flushed encoder buffer. -/
theorem Connection.poll_true_shape {svc : Service} {cap : Option Nat} {c c' : Conn}
    (h : Connection.poll svc cap c = .ok (c', true)) :
    c'.script = [] ∧ c'.futures = [] ∧ c'.encBuf = [] := by
  cases hd : pollDecoder svc c.script c.futures c.encBuf with
  | error e => rw [Connection.poll_error hd] at h; cases h
  | ok d =>
    rw [Connection.poll_ok cap hd] at h
    injection h with h
    have hr : (finishPass cap c d).2 = true := by rw [h]
    have hc' : c' = (finishPass cap c d).1 := by rw [h]
    rw [finishPass_snd, Bool.and_eq_true, Bool.and_eq_true] at hr
    obtain ⟨⟨heof, hfut⟩, henc⟩ := hr
    subst hc'
    refine ⟨?_, ?_, ?_⟩
    · rw [finishPass_script]
      exact pollDecoder_eof hd heof
    · rw [finishPass_futures]
      exact List.isEmpty_iff.mp hfut
    · rw [finishPass_encBuf]
      exact List.isEmpty_iff.mp henc

/-- A session run that completes cleanly conserves the ledger overall. -/
theorem run_done_ledger {svc : Service} :
    ∀ {n : Nat} {caps : List (Option Nat)} {c c' : Conn},
      run svc caps n c = .done c' → c'.ledger svc = c.ledger svc := by
  intro n
  induction n with
  | zero => intro caps c c' h; cases h
  | succ m ih =>
    intro caps c c' h
    cases hp : Connection.poll svc (caps.headD none) c with
    | error e => simp only [run, hp] at h; cases h
    | ok pr =>
      obtain ⟨c2, rdy⟩ := pr
      cases rdy with
      | true =>
        simp only [run, hp] at h
        cases h
        exact Connection.poll_ledger hp
      | false =>
        simp only [run, hp] at h
        exact (ih h).trans (Connection.poll_ledger hp)

/-- A session run that fails conserves the ledger up to the failing pass. -/
theorem run_failed_ledger {svc : Service} :
    ∀ {n : Nat} {caps : List (Option Nat)} {c cf : Conn} {e : Nat},
      run svc caps n c = .failed e cf → cf.ledger svc = c.ledger svc := by
  intro n
  induction n with
  | zero => intro caps c cf e h; cases h
  | succ m ih =>
    intro caps c cf e h
    cases hp : Connection.poll svc (caps.headD none) c with
    | error e' =>
      simp only [run, hp] at h
      cases h
      rfl
    | ok pr =>
      obtain ⟨c2, rdy⟩ := pr
      cases rdy with
      | true => simp only [run, hp] at h; cases h
      | false =>
        simp only [run, hp] at h
        exact (ih h).trans (Connection.poll_ledger hp)

/-- A cleanly completed session run ends with an exhausted script, empty
in-flight set and empty encoder buffer. -/
theorem run_done_shape {svc : Service} :
    ∀ {n : Nat} {caps : List (Option Nat)} {c c' : Conn},
      run svc caps n c = .done c' →
      c'.script = [] ∧ c'.futures = [] ∧ c'.encBuf = [] := by
  intro n
  induction n with
  | zero => intro caps c c' h; cases h
  | succ m ih =>
    intro caps c c' h
    cases hp : Connection.poll svc (caps.headD none) c with
    | error e => simp only [run, hp] at h; cases h
    | ok pr =>
      obtain ⟨c2, rdy⟩ := pr
      cases rdy with
      | true =>
        simp only [run, hp] at h
        cases h
        exact Connection.poll_true_shape hp
      | false =>
        simp only [run, hp] at h
        exact ih h

/-- Scheduling weight of a decoder event: how many scheduling passes it can
keep the session busy (an invoke carries its handler's polling fuel). -/
def eventWeight (svc : Service) : DecoderEvent → Nat
  | .item (.invoke _ _ _ p) => svc.fuel p + 2
  | _ => 1

/-- Scheduling weight of an in-flight set. -/
def futsWeight (l : List Invocation) : Nat :=
  (l.map fun i => i.future.fuel + 1).sum

/-- The weight of an in-flight set is additive over concatenation. -/
theorem futsWeight_append (l1 l2 : List Invocation) :
    futsWeight (l1 ++ l2) = futsWeight l1 + futsWeight l2 := by
  simp [futsWeight]

/-- The weight of an in-flight set with one more invocation in front. -/
theorem futsWeight_cons (i : Invocation) (l : List Invocation) :
    futsWeight (i :: l) = i.future.fuel + 1 + futsWeight l := by
  simp only [futsWeight, List.map_cons, List.sum_cons]

/-- The weight of an empty in-flight set. -/
theorem futsWeight_nil : futsWeight [] = 0 := rfl

/-- Scheduling weight of a session state: an upper bound on the number of
non-ready passes the session can still make under an unconstrained transport. -/
def Conn.weight (svc : Service) (c : Conn) : Nat :=
  (c.script.map (eventWeight svc)).sum + futsWeight c.futures + c.encBuf.length

/-- The decode phase does not increase the scheduling weight, and strictly
decreases it when it stops on a not-ready event. -/
theorem pollDecoder_weight {svc : Service} {s : List DecoderEvent}
    {f : List Invocation} {b : List Response} {d : DecodeRes}
    (h : pollDecoder svc s f b = .ok d) :
    (d.script.map (eventWeight svc)).sum + futsWeight d.futures + d.buf.length
        + (if d.eof then 0 else 1)
      ≤ (s.map (eventWeight svc)).sum + futsWeight f + b.length := by
  induction s generalizing f b with
  | nil =>
    simp only [pollDecoder, Except.ok.injEq] at h
    subst h
    simp
  | cons ev rest ih =>
    cases ev with
    | item r =>
      cases r with
      | ping sq =>
        have hx := ih (by simpa [pollDecoder] using h)
        simp only [List.length_append, List.length_cons, List.length_nil] at hx
        simp [List.map_cons, List.sum_cons, eventWeight]
        omega
      | invoke sq dl ctx p =>
        have hx := ih (by simpa [pollDecoder, Context.with] using h)
        simp only [futsWeight_append, futsWeight_cons, futsWeight_nil,
          Service.call] at hx
        simp only [List.map_cons, List.sum_cons, eventWeight]
        omega
    | notReady =>
      simp only [pollDecoder, Except.ok.injEq] at h
      subst h
      simp [eventWeight]
      omega
    | userErr sq e =>
      have hx := ih (by simpa [pollDecoder] using h)
      simp only [List.length_append, List.length_cons, List.length_nil] at hx
      simp [List.map_cons, List.sum_cons, eventWeight]
      omega
    | frameErr e => simp [pollDecoder] at h

/-- The dispatch-completion phase does not increase the scheduling weight, and
strictly decreases it when some invocation stays pending. -/
theorem pollFutures_weight (f : List Invocation) (b : List Response) :
    futsWeight (pollFutures f b).1 + (pollFutures f b).2.length
        ≤ futsWeight f + b.length ∧
      ((pollFutures f b).1 ≠ [] →
        futsWeight (pollFutures f b).1 + (pollFutures f b).2.length + 1
          ≤ futsWeight f + b.length) := by
  induction f generalizing b with
  | nil => simp [pollFutures]
  | cons inv rest ih =>
    rcases Invocation.poll_spec inv with ⟨n, hf, hp⟩ | ⟨hf, hp⟩
    · rw [pollFutures_cons_notReady hp]
      have hx := (ih b).1
      constructor
      · simp only [futsWeight_cons, hf]
        omega
      · intro _
        simp only [futsWeight_cons, hf]
        omega
    · rw [pollFutures_cons_ready hp]
      have hx := ih (b ++ [Response.invoke inv.seq (inv.future.res inv.ctx)])
      simp only [List.length_append, List.length_cons, List.length_nil] at hx
      constructor
      · simp only [futsWeight_cons, hf]
        omega
      · intro hne
        have := hx.2 hne
        simp only [futsWeight_cons, hf]
        omega

/-- A non-ready, non-failing pass under an unconstrained transport strictly
decreases the scheduling weight. -/
theorem Connection.poll_weight {svc : Service} {c c' : Conn}
    (h : Connection.poll svc none c = .ok (c', false)) :
    c'.weight svc < c.weight svc := by
  cases hd : pollDecoder svc c.script c.futures c.encBuf with
  | error e => rw [Connection.poll_error hd] at h; cases h
  | ok d =>
    rw [Connection.poll_ok none hd] at h
    injection h with h
    have hc' : c' = (finishPass none c d).1 := by rw [h]
    have hr : (finishPass none c d).2 = false := by rw [h]
    have hdw := pollDecoder_weight hd
    have hfw := pollFutures_weight d.futures d.buf
    have hdrop : (pollFutures d.futures d.buf).2.drop
        (flushCount none (pollFutures d.futures d.buf).2.length) = [] := by
      simp [flushCount]
    rw [finishPass_snd, hdrop] at hr
    simp only [List.isEmpty_nil, Bool.and_true, Bool.and_eq_false_iff] at hr
    subst hc'
    have hw : (finishPass none c d).1.weight svc
        = (d.script.map (eventWeight svc)).sum
          + futsWeight (pollFutures d.futures d.buf).1 := by
      simp [Conn.weight, finishPass_script, finishPass_futures, finishPass_encBuf,
        hdrop]
    rw [hw]
    rcases hr with hr | hr
    · rw [hr] at hdw
      simp only [if_neg Bool.false_ne_true] at hdw
      have := hfw.1
      simp only [Conn.weight]
      omega
    · have hne : (pollFutures d.futures d.buf).1 ≠ [] := by
        intro hnil
        rw [hnil] at hr
        simp at hr
      have hstrict := hfw.2 hne
      have : (if d.eof then 0 else 1) ≤ 1 := by split <;> omega
      simp only [Conn.weight]
      omega

/-- Under an unconstrained transport, a session with enough scheduling fuel
always finishes: it either completes cleanly or fails on a frame error. -/
theorem run_term (svc : Service) :
    ∀ (n : Nat) (c : Conn), c.weight svc < n →
      (∃ c', run svc [] n c = .done c') ∨ ∃ e cf, run svc [] n c = .failed e cf := by
  intro n
  induction n with
  | zero => intro c h; omega
  | succ m ih =>
    intro c h
    cases hp : Connection.poll svc none c with
    | error e => exact Or.inr ⟨e, c, by simp [run, hp]⟩
    | ok pr =>
      obtain ⟨c2, rdy⟩ := pr
      cases rdy with
      | true => exact Or.inl ⟨c2, by simp [run, hp]⟩
      | false =>
        have hw := Connection.poll_weight hp
        rcases ih c2 (by omega) with ⟨c', hc⟩ | ⟨e, cf, hc⟩
        · exact Or.inl ⟨c', by simpa [run, hp] using hc⟩
        · exact Or.inr ⟨e, cf, by simpa [run, hp] using hc⟩

/-- A frame-error-free session under an unconstrained transport completes
cleanly given enough scheduling fuel. -/
theorem run_noframe_done (svc : Service) :
    ∀ (n : Nat) (c : Conn), firstFrame c.script = none → c.weight svc < n →
      ∃ c', run svc [] n c = .done c' := by
  intro n
  induction n with
  | zero => intro c _ h; omega
  | succ m ih =>
    intro c hs h
    obtain ⟨d, hd⟩ := pollDecoder_ok_of_noframe svc c.futures c.encBuf hs
    have hp := Connection.poll_ok none hd
    rcases hfp : finishPass none c d with ⟨c2, rdy⟩
    rw [hfp] at hp
    cases rdy with
    | true => exact ⟨c2, by simp [run, hp]⟩
    | false =>
      have hw := Connection.poll_weight hp
      have hsc : c2.script = d.script := by
        have := finishPass_script none c d
        rw [hfp] at this
        exact this
      have hs2 : firstFrame c2.script = none := by
        rw [hsc, pollDecoder_firstFrame hd]
        exact hs
      obtain ⟨c', hc⟩ := ih c2 hs2 (by omega)
      exact ⟨c', by simpa [run, hp] using hc⟩

/-- A session whose script carries a frame error, under an unconstrained
transport and enough scheduling fuel, fails with the first such error. -/
theorem run_frame_failed (svc : Service) :
    ∀ (n : Nat) (c : Conn) (e : Nat), firstFrame c.script = some e →
      c.weight svc < n → ∃ cf, run svc [] n c = .failed e cf := by
  intro n
  induction n with
  | zero => intro c e _ h; omega
  | succ m ih =>
    intro c e hs h
    cases hd : pollDecoder svc c.script c.futures c.encBuf with
    | error e' =>
      have he : e' = e := by
        have := pollDecoder_error hd
        rw [hs] at this
        injection this with this
        exact this.symm
      subst he
      exact ⟨c, by simp [run, Connection.poll_error hd]⟩
    | ok d =>
      have hp := Connection.poll_ok none hd
      rcases hfp : finishPass none c d with ⟨c2, rdy⟩
      rw [hfp] at hp
      cases rdy with
      | true =>
        exfalso
        obtain ⟨hsc, _, _⟩ := Connection.poll_true_shape hp
        have hff := pollDecoder_firstFrame hd
        have hsc2 : c2.script = d.script := by
          have := finishPass_script none c d
          rw [hfp] at this
          exact this
        rw [← hsc2, hsc] at hff
        rw [hs] at hff
        simp [firstFrame] at hff
      | false =>
        have hw := Connection.poll_weight hp
        have hsc : c2.script = d.script := by
          have := finishPass_script none c d
          rw [hfp] at this
          exact this
        have hs2 : firstFrame c2.script = some e := by
          rw [hsc, pollDecoder_firstFrame hd]
          exact hs
        obtain ⟨cf, hc⟩ := ih c2 e hs2 (by omega)
        exact ⟨cf, by simpa [run, hp] using hc⟩

/-- Whether a decoder event is a frame error. -/
def DecoderEvent.isFrame : DecoderEvent → Bool
  | .frameErr _ => true
  | _ => false

/-- Whether a decoder event is a decoded request or a plain scheduling pause
(no decode error of either kind). -/
def DecoderEvent.isPlain : DecoderEvent → Bool
  | .item _ => true
  | .notReady => true
  | _ => false

/-- Whether a decoder event is a decoded request. -/
def DecoderEvent.isItem : DecoderEvent → Bool
  | .item _ => true
  | _ => false

/-- Whether a decoder event dispatches only handler futures that resolve on
their first poll. -/
def DecoderEvent.immediate (svc : Service) : DecoderEvent → Bool
  | .item (.invoke _ _ _ p) => decide (svc.fuel p = 0)
  | _ => true

/-- A script with no frame-error events has no first frame error. -/
theorem firstFrame_eq_none {s : List DecoderEvent}
    (h : ∀ ev ∈ s, ev.isFrame = false) : firstFrame s = none := by
  induction s with
  | nil => rfl
  | cons ev rest ih =>
    cases ev with
    | item r => exact ih fun x hx => h x (List.mem_cons_of_mem _ hx)
    | notReady => exact ih fun x hx => h x (List.mem_cons_of_mem _ hx)
    | userErr sq e => exact ih fun x hx => h x (List.mem_cons_of_mem _ hx)
    | frameErr e => simpa [DecoderEvent.isFrame] using h _ (List.mem_cons_self _ _)

/-- The first frame error of a script whose frame-error-free part is followed
by a frame error is that frame error. -/
theorem firstFrame_append {pre post : List DecoderEvent} {e : Nat}
    (h : ∀ ev ∈ pre, ev.isFrame = false) :
    firstFrame (pre ++ .frameErr e :: post) = some e := by
  induction pre with
  | nil => rfl
  | cons ev rest ih =>
    cases ev with
    | item r => exact ih fun x hx => h x (List.mem_cons_of_mem _ hx)
    | notReady => exact ih fun x hx => h x (List.mem_cons_of_mem _ hx)
    | userErr sq e' => exact ih fun x hx => h x (List.mem_cons_of_mem _ hx)
    | frameErr e' => simpa [DecoderEvent.isFrame] using h _ (List.mem_cons_self _ _)

/-- An event that is a request or a pause is not a frame error. -/
theorem isFrame_false_of_isPlain {ev : DecoderEvent} (h : ev.isPlain = true) :
    ev.isFrame = false := by
  cases ev <;> simp_all [DecoderEvent.isPlain, DecoderEvent.isFrame]

/-- Keys of the responses a script demands are the keys of its events. -/
theorem filterMap_expected_key (svc : Service) :
    ∀ s : List DecoderEvent,
      (s.filterMap svc.expected).map Response.key = s.filterMap DecoderEvent.key := by
  intro s
  induction s with
  | nil => rfl
  | cons ev rest ih =>
    cases ev with
    | item r =>
      cases r <;> simp [Service.expected, DecoderEvent.key, Response.key, ih]
    | notReady => simpa [Service.expected, DecoderEvent.key] using ih
    | userErr sq e => simp [Service.expected, DecoderEvent.key, Response.key, ih]
    | frameErr e => simpa [Service.expected, DecoderEvent.key] using ih

/-- All correlation keys a session state accounts for: keys of flushed and
buffered responses, of in-flight invocations, and of the unconsumed script. -/
def Conn.keyList (c : Conn) : List (Bool × Nat) :=
  c.sent.map Response.key ++ c.encBuf.map Response.key
    ++ c.futures.map (fun i => (false, i.seq)) ++ c.script.filterMap DecoderEvent.key

/-- The session ledger's keys are the session state's key list. -/
theorem ledger_key (svc : Service) (c : Conn) :
    (c.ledger svc).map Response.key = ↑c.keyList := by
  have hc : c.ledger svc = ↑(c.sent ++ c.encBuf ++ c.futures.map Invocation.expected
      ++ c.script.filterMap svc.expected) := by
    simp [Conn.ledger, Multiset.coe_add]
  have hl : (c.sent ++ c.encBuf ++ c.futures.map Invocation.expected
      ++ c.script.filterMap svc.expected).map Response.key = c.keyList := by
    simp [Conn.keyList, List.map_append, List.map_map, Function.comp,
      Invocation.expected, Response.key, filterMap_expected_key]
  rw [hc, Multiset.map_coe, hl]

/-- A fresh session owes exactly the responses its script demands. -/
theorem init_ledger (svc : Service) (script : List DecoderEvent) :
    (Conn.init script).ledger svc = ↑(script.filterMap svc.expected) := by
  simp [Conn.ledger, Conn.init]

/-- The key list of a fresh session is the key list of its script. -/
theorem init_keyList (script : List DecoderEvent) :
    (Conn.init script).keyList = script.filterMap DecoderEvent.key := by
  simp [Conn.keyList, Conn.init]

/-- A cleanly completed session run flushed exactly the responses the script
demanded, counted with multiplicity. -/
theorem run_done_sent {svc : Service} {n : Nat} {caps : List (Option Nat)}
    {script : List DecoderEvent} {c' : Conn}
    (h : run svc caps n (Conn.init script) = .done c') :
    (↑c'.sent : Multiset Response) = ↑(script.filterMap svc.expected) := by
  have hl := run_done_ledger h
  rw [init_ledger] at hl
  obtain ⟨h1, h2, h3⟩ := run_done_shape h
  rw [Conn.ledger, h1, h2, h3] at hl
  simpa using hl

/-- The keys of a failed run's final state are the keys of the script. -/
theorem run_failed_keys {svc : Service} {n : Nat} {caps : List (Option Nat)}
    {script : List DecoderEvent} {e : Nat} {cf : Conn}
    (h : run svc caps n (Conn.init script) = .failed e cf) :
    (↑cf.keyList : Multiset (Bool × Nat)) = ↑(script.filterMap DecoderEvent.key) := by
  have hl := run_failed_ledger h
  have := congrArg (Multiset.map Response.key) hl
  rw [ledger_key, ledger_key, init_keyList] at this
  exact this

/-- A failed run of a key-distinct script ends with a duplicate-free key list. -/
theorem run_failed_nodup {svc : Service} {n : Nat} {caps : List (Option Nat)}
    {script : List DecoderEvent} {e : Nat} {cf : Conn}
    (hk : (script.filterMap DecoderEvent.key).Nodup)
    (h : run svc caps n (Conn.init script) = .failed e cf) :
    cf.keyList.Nodup := by
  have hp := Multiset.coe_eq_coe.mp (run_failed_keys h)
  exact hp.nodup_iff.mpr hk

/-- In a state with a duplicate-free key list, no flushed response answers a
still-in-flight invocation's sequence number. -/
theorem nodup_sent_futures {cf : Conn} (hn : cf.keyList.Nodup) :
    ∀ inv ∈ cf.futures, ∀ r, Response.invoke inv.seq r ∉ cf.sent := by
  intro inv hinv r hr
  have hk1 : ((false : Bool), inv.seq) ∈ cf.sent.map Response.key :=
    List.mem_map.mpr ⟨Response.invoke inv.seq r, hr, rfl⟩
  have hk2 : ((false : Bool), inv.seq) ∈ cf.futures.map (fun i => (false, i.seq)) :=
    List.mem_map.mpr ⟨inv, hinv, rfl⟩
  unfold Conn.keyList at hn
  have hd := (List.nodup_append.mp (List.nodup_append.mp hn).1).2.2
  exact hd (List.mem_append_left _ hk1) hk2

/-- In a state with a duplicate-free key list, no flushed response answers an
invoke request still unconsumed in the script. -/
theorem nodup_sent_script {cf : Conn} (hn : cf.keyList.Nodup) :
    ∀ sq dl ctx p, DecoderEvent.item (Request.invoke sq dl ctx p) ∈ cf.script →
      ∀ r, Response.invoke sq r ∉ cf.sent := by
  intro sq dl ctx p hmem r hr
  have hk1 : ((false : Bool), sq) ∈ cf.sent.map Response.key :=
    List.mem_map.mpr ⟨Response.invoke sq r, hr, rfl⟩
  have hk2 : ((false : Bool), sq) ∈ cf.script.filterMap DecoderEvent.key :=
    List.mem_filterMap.mpr ⟨_, hmem, rfl⟩
  unfold Conn.keyList at hn
  have hd := (List.nodup_append.mp hn).2.2
  exact hd (List.mem_append_left _ (List.mem_append_left _ hk1)) hk2

/-- In a state with a duplicate-free key list, no buffered response was ever
flushed. -/
theorem nodup_sent_encBuf {cf : Conn} (hn : cf.keyList.Nodup) :
    ∀ r ∈ cf.encBuf, r ∉ cf.sent := by
  intro r hb hs
  have hk1 : r.key ∈ cf.sent.map Response.key := List.mem_map.mpr ⟨r, hs, rfl⟩
  have hk2 : r.key ∈ cf.encBuf.map Response.key := List.mem_map.mpr ⟨r, hb, rfl⟩
  unfold Conn.keyList at hn
  have hd :=
    (List.nodup_append.mp (List.nodup_append.mp (List.nodup_append.mp hn).1).1).2.2
  exact hd hk1 hk2

/-- In a list of responses with duplicate-free keys, every member occurs
exactly once. -/
theorem count_one_of_key_nodup {l : List Response}
    (hn : (l.map Response.key).Nodup) {r : Response} (hr : r ∈ l) :
    l.count r = 1 := by
  have h1 : 0 < l.count r := List.count_pos_iff.mpr hr
  have h2 : l.count r ≤ 1 :=
    List.nodup_iff_count_le_one.mp (List.Nodup.of_map _ hn) r
  omega

/-- A script of decoded requests only, all of whose invokes dispatch handler
futures resolving on their first poll, decodes to stream end with an in-flight
set of immediately resolvable invocations. -/
theorem pollDecoder_items (svc : Service) :
    ∀ (s : List DecoderEvent) (f : List Invocation) (b : List Response),
      (∀ ev ∈ s, ev.isItem = true) → (∀ ev ∈ s, ev.immediate svc = true) →
      (∀ inv ∈ f, inv.future.fuel = 0) →
      ∃ d, pollDecoder svc s f b = .ok d ∧ d.eof = true ∧
        ∀ inv ∈ d.futures, inv.future.fuel = 0 := by
  intro s
  induction s with
  | nil => exact fun f b _ _ hf => ⟨_, rfl, rfl, hf⟩
  | cons ev rest ih =>
    intro f b hit himm hf
    cases ev with
    | item r =>
      cases r with
      | ping sq =>
        obtain ⟨d, hd, he, hfu⟩ := ih f (b ++ [.ping sq])
          (fun x hx => hit x (List.mem_cons_of_mem _ hx))
          (fun x hx => himm x (List.mem_cons_of_mem _ hx)) hf
        exact ⟨d, by simpa [pollDecoder] using hd, he, hfu⟩
      | invoke sq dl ctx p =>
        have hp0 : svc.fuel p = 0 := by
          have := himm _ (List.mem_cons_self _ _)
          simpa [DecoderEvent.immediate] using this
        obtain ⟨d, hd, he, hfu⟩ := ih (f ++ [⟨sq, Service.call svc ctx p, ctx⟩]) b
          (fun x hx => hit x (List.mem_cons_of_mem _ hx))
          (fun x hx => himm x (List.mem_cons_of_mem _ hx))
          (by
            intro inv hinv
            rcases List.mem_append.mp hinv with hl | hr
            · exact hf inv hl
            · rw [List.mem_singleton.mp hr]
              simpa [Service.call] using hp0)
        exact ⟨d, by simpa [pollDecoder, Context.with] using hd, he, hfu⟩
    | notReady => simpa [DecoderEvent.isItem] using hit _ (List.mem_cons_self _ _)
    | userErr sq e => simpa [DecoderEvent.isItem] using hit _ (List.mem_cons_self _ _)
    | frameErr e => simpa [DecoderEvent.isItem] using hit _ (List.mem_cons_self _ _)

/-- An in-flight set of invocations out of fuel resolves entirely in one
dispatch-completion phase. -/
theorem pollFutures_resolved (f : List Invocation) (b : List Response)
    (hf : ∀ inv ∈ f, inv.future.fuel = 0) : (pollFutures f b).1 = [] := by
  induction f generalizing b with
  | nil => simp [pollFutures]
  | cons inv rest ih =>
    rcases Invocation.poll_spec inv with ⟨n, hn, hp⟩ | ⟨h0, hp⟩
    · exact absurd (hf inv (List.mem_cons_self _ _)) (by rw [hn]; simp)
    · rw [pollFutures_cons_ready hp]
      exact ih _ fun x hx => hf x (List.mem_cons_of_mem _ hx)

/-- Each invocation contributes exactly one item to a dispatch-completion
phase's output: either it stays in the pending set or exactly one response is
appended to the buffer. -/
theorem pollFutures_count (f : List Invocation) (b : List Response) :
    (pollFutures f b).2.length + (pollFutures f b).1.length
      = b.length + f.length := by
  induction f generalizing b with
  | nil => simp [pollFutures]
  | cons inv rest ih =>
    rcases Invocation.poll_spec inv with ⟨n, hn, hp⟩ | ⟨h0, hp⟩
    · rw [pollFutures_cons_notReady hp]
      have := ih b
      simp only [List.length_cons]
      omega
    · rw [pollFutures_cons_ready hp]
      have := ih (b ++ [Response.invoke inv.seq (inv.future.res inv.ctx)])
      simp only [List.length_append, List.length_cons, List.length_nil] at this
      simp only [List.length_cons]
      omega

/-- Provenance of the in-flight set left by a decode phase: every invocation
either was already in flight, or was created by an invoke request of the
consumed script under that request's own context scope. -/
theorem pollDecoder_futures_src (svc : Service) :
    ∀ (s : List DecoderEvent) (f : List Invocation) (b : List Response)
      (d : DecodeRes), pollDecoder svc s f b = .ok d →
      ∀ inv ∈ d.futures, inv ∈ f ∨
        ∃ dl p, DecoderEvent.item (Request.invoke inv.seq dl inv.ctx p) ∈ s ∧
          inv.future = svc.call inv.ctx p := by
  intro s
  induction s with
  | nil =>
    intro f b d h inv hinv
    simp only [pollDecoder, Except.ok.injEq] at h
    subst h
    exact Or.inl hinv
  | cons ev rest ih =>
    intro f b d h inv hinv
    cases ev with
    | item r =>
      cases r with
      | ping sq =>
        rcases ih _ _ _ (by simpa [pollDecoder] using h) inv hinv with hl | ⟨dl, p, hm, he⟩
        · exact Or.inl hl
        · exact Or.inr ⟨dl, p, List.mem_cons_of_mem _ hm, he⟩
      | invoke sq dl0 ctx p0 =>
        rcases ih _ _ _ (by simpa [pollDecoder, Context.with] using h) inv hinv with
          hl | ⟨dl, p, hm, he⟩
        · rcases List.mem_append.mp hl with hf | hnew
          · exact Or.inl hf
          · rw [List.mem_singleton.mp hnew]
            exact Or.inr ⟨dl0, p0, List.mem_cons_self _ _, rfl⟩
        · exact Or.inr ⟨dl, p, List.mem_cons_of_mem _ hm, he⟩
    | notReady =>
      simp only [pollDecoder, Except.ok.injEq] at h
      subst h
      exact Or.inl hinv
    | userErr sq e =>
      rcases ih _ _ _ (by simpa [pollDecoder] using h) inv hinv with hl | ⟨dl, p, hm, he⟩
      · exact Or.inl hl
      · exact Or.inr ⟨dl, p, List.mem_cons_of_mem _ hm, he⟩
    | frameErr e => simp [pollDecoder] at h

/-- Provenance of the pending set left by a dispatch-completion phase: every
still-pending invocation is an in-flight invocation with the same `seq` and
context scope, whose one additional observation was of its own context. -/
theorem pollFutures_src :
    ∀ (f : List Invocation) (b : List Response), ∀ inv' ∈ (pollFutures f b).1,
      ∃ inv ∈ f, inv'.seq = inv.seq ∧ inv'.ctx = inv.ctx ∧
        inv'.future.res = inv.future.res ∧
        inv'.future.observed = inv.future.observed ++ [inv.ctx] := by
  intro f
  induction f with
  | nil => intro b inv' h; simp [pollFutures] at h
  | cons inv rest ih =>
    intro b inv' h
    rcases Invocation.poll_spec inv with ⟨n, hn, hp⟩ | ⟨h0, hp⟩
    · rw [pollFutures_cons_notReady hp] at h
      rcases List.mem_cons.mp h with he | hr
      · subst he
        exact ⟨inv, List.mem_cons_self _ _, rfl, rfl, rfl, rfl⟩
      · obtain ⟨i0, hi0, h1, h2, h3, h4⟩ := ih b inv' hr
        exact ⟨i0, List.mem_cons_of_mem _ hi0, h1, h2, h3, h4⟩
    · rw [pollFutures_cons_ready hp] at h
      obtain ⟨i0, hi0, h1, h2, h3, h4⟩ := ih _ inv' h
      exact ⟨i0, List.mem_cons_of_mem _ hi0, h1, h2, h3, h4⟩

/-- Reachability between session states: zero or more non-ready, non-failing
scheduling passes, with arbitrary transport flush capacity at each pass. -/
inductive Reaches (svc : Service) : Conn → Conn → Prop where
  | refl (c : Conn) : Reaches svc c c
  | step {c c' c'' : Conn} (cap : Option Nat)
      (h : Connection.poll svc cap c = .ok (c', false))
      (h' : Reaches svc c' c'') : Reaches svc c c''

/-- The context-scoping invariant of a session over an original script: the
unconsumed script is part of the original one, and every in-flight invocation
has observed only its own context scope at every poll and originates from an
invoke request of the original script carrying exactly that scope. -/
def ctxFaithful (script : List DecoderEvent) (c : Conn) : Prop :=
  (∀ ev ∈ c.script, ev ∈ script) ∧
    ∀ inv ∈ c.futures, (∀ a ∈ inv.future.observed, a = inv.ctx) ∧
      ∃ dl p, DecoderEvent.item (Request.invoke inv.seq dl inv.ctx p) ∈ script

/-- One scheduling pass preserves the context-scoping invariant. -/
theorem poll_ctxFaithful {svc : Service} {cap : Option Nat} {c c' : Conn} {r : Bool}
    {script : List DecoderEvent} (h : Connection.poll svc cap c = .ok (c', r))
    (hc : ctxFaithful script c) : ctxFaithful script c' := by
  cases hd : pollDecoder svc c.script c.futures c.encBuf with
  | error e => rw [Connection.poll_error hd] at h; cases h
  | ok d =>
    rw [Connection.poll_ok cap hd] at h
    injection h with h
    have hc' : c' = (finishPass cap c d).1 := by rw [h]
    subst hc'
    constructor
    · rw [finishPass_script]
      exact fun ev hev => hc.1 ev (pollDecoder_script_sub hd ev hev)
    · rw [finishPass_futures]
      intro inv' hinv'
      obtain ⟨inv, hinv, h1, h2, h3, h4⟩ := pollFutures_src d.futures d.buf inv' hinv'
      rcases pollDecoder_futures_src svc c.script c.futures c.encBuf d hd inv hinv with
        hold | ⟨dl, p, hm, hfut⟩
      · obtain ⟨hobs, dl, p, hprov⟩ := hc.2 inv hold
        constructor
        · intro a ha
          rw [h4] at ha
          rcases List.mem_append.mp ha with hl | hr
          · rw [h2]; exact hobs a hl
          · rw [List.mem_singleton.mp hr, h2]
        · exact ⟨dl, p, by rw [h1, h2]; exact hprov⟩
      · constructor
        · intro a ha
          rw [h4, hfut] at ha
          simp only [Service.call, List.mem_append, List.mem_singleton] at ha
          rcases ha with hl | hr
          · rw [h2]; simpa using hl
          · rw [hr, h2]
        · exact ⟨dl, p, by rw [h1, h2]; exact hc.1 _ hm⟩

/-- Any number of scheduling passes preserves the context-scoping invariant. -/
theorem reaches_ctxFaithful {svc : Service} {script : List DecoderEvent} :
    ∀ {c c' : Conn}, Reaches svc c c' → ctxFaithful script c → ctxFaithful script c' := by
  intro c c' h
  induction h with
  | refl _ => exact id
  | step cap hp _ ih => exact fun hc => ih (poll_ctxFaithful hp hc)

/-- A request with its advisory deadline field zeroed out. -/
def Request.stripDl : Request → Request
  | .ping s => .ping s
  | .invoke s _ ctx p => .invoke s 0 ctx p

/-- A decoder event with any advisory deadline field zeroed out. -/
def DecoderEvent.stripDl : DecoderEvent → DecoderEvent
  | .item r => .item r.stripDl
  | .notReady => .notReady
  | .userErr s e => .userErr s e
  | .frameErr e => .frameErr e

/-- A session state with all advisory deadline fields of its script zeroed. -/
def Conn.strip (c : Conn) : Conn :=
  ⟨c.script.map DecoderEvent.stripDl, c.futures, c.encBuf, c.sent⟩

/-- The observable outcome of a session run: how it ended, every response it
flushed to the transport, and the connection-fatal error if any. -/
def RunResult.obs : RunResult → Nat × List Response × Option Nat
  | .done c => (0, c.sent, none)
  | .failed e c => (1, c.sent, some e)
  | .outOfFuel c => (2, c.sent, none)

/-- The decode phase never reads the advisory deadline field: decoding a
deadline-stripped script gives the same outcome with a stripped remainder. -/
theorem pollDecoder_strip (svc : Service) :
    ∀ (s : List DecoderEvent) (f : List Invocation) (b : List Response),
      pollDecoder svc (s.map DecoderEvent.stripDl) f b
        = (pollDecoder svc s f b).map
            (fun d => ⟨d.script.map DecoderEvent.stripDl, d.futures, d.buf, d.eof⟩) := by
  intro s
  induction s with
  | nil => intro f b; rfl
  | cons ev rest ih =>
    intro f b
    cases ev with
    | item r =>
      cases r with
      | ping sq => simpa [DecoderEvent.stripDl, Request.stripDl, pollDecoder] using ih f (b ++ [.ping sq])
      | invoke sq dl ctx p =>
        simpa [DecoderEvent.stripDl, Request.stripDl, pollDecoder, Context.with]
          using ih (f ++ [⟨sq, Service.call svc ctx p, ctx⟩]) b
    | notReady => simp [DecoderEvent.stripDl, pollDecoder, Except.map]
    | userErr sq e =>
      simpa [DecoderEvent.stripDl, pollDecoder] using ih f (b ++ [.invoke sq (.error e)])
    | frameErr e => simp [DecoderEvent.stripDl, pollDecoder, Except.map]

/-- A scheduling pass never reads the advisory deadline field. -/
theorem poll_strip (svc : Service) (cap : Option Nat) (c : Conn) :
    Connection.poll svc cap (c.strip)
      = (Connection.poll svc cap c).map (fun pr => (pr.1.strip, pr.2)) := by
  have hd := pollDecoder_strip svc c.script c.futures c.encBuf
  cases hc : pollDecoder svc c.script c.futures c.encBuf with
  | error e =>
    rw [hc] at hd
    simp only [Connection.poll, Conn.strip, hd, hc, Except.map]
  | ok d =>
    rw [hc] at hd
    simp only [Connection.poll, Conn.strip, hd, hc, Except.map, Except.ok.injEq]
    simp [finishPass, Conn.strip]

/-- A session run never reads the advisory deadline field: its observable
outcome on a deadline-stripped script is the same. -/
theorem run_strip_obs (svc : Service) :
    ∀ (n : Nat) (caps : List (Option Nat)) (c : Conn),
      (run svc caps n (c.strip)).obs = (run svc caps n c).obs := by
  intro n
  induction n with
  | zero => intro caps c; rfl
  | succ m ih =>
    intro caps c
    cases hp : Connection.poll svc (caps.headD none) c with
    | error e =>
      have hps : Connection.poll svc (caps.headD none) (c.strip) = .error e := by
        rw [poll_strip, hp]; rfl
      simp only [run, hp, hps, RunResult.obs]
      rfl
    | ok pr =>
      obtain ⟨c2, rdy⟩ := pr
      have hps : Connection.poll svc (caps.headD none) (c.strip)
          = .ok (c2.strip, rdy) := by
        rw [poll_strip, hp]; rfl
      cases rdy with
      | true => simp only [run, hp, hps, RunResult.obs]; rfl
      | false =>
        simp only [run, hp, hps]
        exact ih caps.tail c2

/-- The decode phase of a session state reports stream end. -/
def decodeAtEof (svc : Service) (c : Conn) : Prop :=
  ∃ d, pollDecoder svc c.script c.futures c.encBuf = .ok d ∧ d.eof = true

/-- One event of the transport connection source: an accepted connection (its
handler factory outcome, its decoder script, its per-pass flush capacities and
its scheduling fuel) or a failure of the source itself. -/
inductive SrcEvent where
  | conn (factory : Except Nat Service) (script : List DecoderEvent)
      (caps : List (Option Nat)) (fuel : Nat)
  | srcErr (e : Nat)

/-- Whether a source event is a failure of the connection source. -/
def SrcEvent.isSrcErr : SrcEvent → Bool
  | .srcErr _ => true
  | _ => false

/-- What the listener did with one accepted connection: logged the factory
error and discarded it, or served a full session on it. -/
inductive SpawnRecord where
  | discarded (e : Nat)
  | served (r : RunResult)

/-- `Server::spawn` and `Server::spawn_service` (server.rs lines 39-64): build
the handler via the factory; on factory failure log and discard the connection
(the spawned task ends with no session); on success run a `Connection` session
bound to the new handler and the connection's transport. -/
def handleConn (factory : Except Nat Service) (script : List DecoderEvent)
    (caps : List (Option Nat)) (fuel : Nat) : SpawnRecord :=
  match factory with
  | .error e => .discarded e
  | .ok svc => .served (run svc caps fuel (Conn.init script))

/-- What one source event turns into. -/
def SrcEvent.record : SrcEvent → SpawnRecord
  | .conn f s cp fl => handleConn f s cp fl
  | .srcErr e => .discarded e

/-- `impl Future for Server` (server.rs lines 81-89): loop over the connection
source; each accepted connection is spawned (factory failures are absorbed in
the spawned task), a source failure is fatal to the listener, and exhaustion
of the source completes the listener. -/
def serverPoll : List SrcEvent → List SpawnRecord × Except Nat Unit
  | [] => ([], .ok ())
  | .srcErr e :: _ => ([], .error e)
  | .conn f s cp fl :: rest =>
    (handleConn f s cp fl :: (serverPoll rest).1, (serverPoll rest).2)

/-- C1: for every finite decoder script of decoded `Ping`/`Invoke` requests
(interleaved with scheduling pauses) with distinct correlation keys, no
connection-fatal error occurs, every dispatched handler future resolves, the
session completes, and it hands to the encode half exactly one response per
request bearing that request's `seq`: a `Response.ping seq` for each
`Ping(seq)` and a `Response.invoke seq outcome` for each `Invoke(seq, ...)`. -/
theorem C1_one_response_per_request (svc : Service) (script : List DecoderEvent)
    (hplain : ∀ ev ∈ script, ev.isPlain = true)
    (hkeys : (script.filterMap DecoderEvent.key).Nodup) :
    ∃ n c', run svc [] n (Conn.init script) = .done c' ∧
      (↑(c'.sent.map Response.key) : Multiset (Bool × Nat))
        = ↑(script.filterMap DecoderEvent.key) ∧
      (∀ sq, DecoderEvent.item (Request.ping sq) ∈ script →
        c'.sent.count (Response.ping sq) = 1) ∧
      (∀ sq dl ctx p, DecoderEvent.item (Request.invoke sq dl ctx p) ∈ script →
        c'.sent.count (Response.invoke sq (svc.res p ctx)) = 1) := by
  have hnf : firstFrame script = none :=
    firstFrame_eq_none fun ev h => isFrame_false_of_isPlain (hplain ev h)
  obtain ⟨c', hrun⟩ := run_noframe_done svc ((Conn.init script).weight svc + 1)
    (Conn.init script) hnf (by omega)
  have hsent := run_done_sent hrun
  have hxk : (↑(c'.sent.map Response.key) : Multiset (Bool × Nat))
      = ↑(script.filterMap DecoderEvent.key) := by
    have := congrArg (Multiset.map Response.key) hsent
    rw [Multiset.map_coe, Multiset.map_coe, filterMap_expected_key] at this
    exact this
  have hcount : ∀ r : Response,
      c'.sent.count r = (script.filterMap svc.expected).count r := by
    intro r
    have := congrArg (Multiset.count r) hsent
    simpa [Multiset.coe_count] using this
  have hex_nodup : ((script.filterMap svc.expected).map Response.key).Nodup := by
    rw [filterMap_expected_key]
    exact hkeys
  refine ⟨_, c', hrun, hxk, ?_, ?_⟩
  · intro sq hm
    rw [hcount]
    exact count_one_of_key_nodup hex_nodup (List.mem_filterMap.mpr ⟨_, hm, rfl⟩)
  · intro sq dl ctx p hm
    rw [hcount]
    exact count_one_of_key_nodup hex_nodup (List.mem_filterMap.mpr ⟨_, hm, rfl⟩)

/-- C2: a frame error terminates the session immediately with that error, and
no response is ever emitted for any request that was decoded but whose
invocation had not yet resolved at that moment — neither for the invocations
in flight at the failing pass nor for the invoke requests its decode phase
consumes before hitting the frame error. -/
theorem C2_frame_error_terminates (svc : Service) (pre post : List DecoderEvent)
    (e : Nat) (hpre : ∀ ev ∈ pre, ev.isFrame = false)
    (hkeys : ((pre ++ .frameErr e :: post).filterMap DecoderEvent.key).Nodup) :
    ∃ n cf, run svc [] n (Conn.init (pre ++ .frameErr e :: post)) = .failed e cf ∧
      (∀ inv ∈ cf.futures, ∀ r, Response.invoke inv.seq r ∉ cf.sent) ∧
      (∀ sq dl ctx p, DecoderEvent.item (Request.invoke sq dl ctx p) ∈ cf.script →
        ∀ r, Response.invoke sq r ∉ cf.sent) := by
  have hff : firstFrame (pre ++ .frameErr e :: post) = some e := firstFrame_append hpre
  obtain ⟨cf, hrun⟩ := run_frame_failed svc
    ((Conn.init (pre ++ .frameErr e :: post)).weight svc + 1)
    (Conn.init (pre ++ .frameErr e :: post)) e hff (by omega)
  have hnd := run_failed_nodup hkeys hrun
  exact ⟨_, cf, hrun, nodup_sent_futures hnd, nodup_sent_script hnd⟩

/-- C3: a user decode error `UserError(seq, e)` does not terminate the session:
the session still completes, enqueues exactly one `Response.invoke seq (Err e)`
to the encode half, and every other request of the script — including those
decoded after the user error — still receives its response. -/
theorem C3_user_error_recovered (svc : Service) (script : List DecoderEvent)
    (sq e : Nat) (hmem : DecoderEvent.userErr sq e ∈ script)
    (hnf : ∀ ev ∈ script, ev.isFrame = false)
    (hkeys : (script.filterMap DecoderEvent.key).Nodup) :
    ∃ n c', run svc [] n (Conn.init script) = .done c' ∧
      c'.sent.count (Response.invoke sq (Except.error e)) = 1 ∧
      ∀ ev ∈ script, ∀ r, svc.expected ev = some r → r ∈ c'.sent := by
  obtain ⟨c', hrun⟩ := run_noframe_done svc ((Conn.init script).weight svc + 1)
    (Conn.init script) (firstFrame_eq_none hnf) (by omega)
  have hsent := run_done_sent hrun
  have hcount : ∀ r : Response,
      c'.sent.count r = (script.filterMap svc.expected).count r := by
    intro r
    have := congrArg (Multiset.count r) hsent
    simpa [Multiset.coe_count] using this
  refine ⟨_, c', hrun, ?_, ?_⟩
  · rw [hcount]
    exact count_one_of_key_nodup
      (by rw [filterMap_expected_key]; exact hkeys)
      (List.mem_filterMap.mpr ⟨_, hmem, rfl⟩)
  · intro ev hev r hr
    have hm : r ∈ script.filterMap svc.expected := List.mem_filterMap.mpr ⟨ev, hev, hr⟩
    have hp := List.count_pos_iff.mpr hm
    rw [← hcount] at hp
    exact List.count_pos_iff.mp hp

/-- C4: the three phases of a scheduling pass run in the fixed order decode,
dispatch-completion, encode in every non-erroring pass, so work created by an
earlier phase is available to the later phases of the same pass: a script of
decoded requests whose handler futures resolve on their first poll is decoded,
dispatched, completed and fully flushed within one single pass, which reports
ready. -/
theorem C4_phases_in_order_same_pass (svc : Service) (script : List DecoderEvent)
    (hit : ∀ ev ∈ script, ev.isItem = true)
    (himm : ∀ ev ∈ script, ev.immediate svc = true) :
    ∃ c', Connection.poll svc none (Conn.init script) = .ok (c', true) ∧
      (↑c'.sent : Multiset Response) = ↑(script.filterMap svc.expected) := by
  obtain ⟨d, hd, he, hfu⟩ := pollDecoder_items svc script [] [] hit himm (by simp)
  have hd' : pollDecoder svc (Conn.init script).script (Conn.init script).futures
      (Conn.init script).encBuf = .ok d := hd
  have hp := Connection.poll_ok none hd'
  have hpend : (pollFutures d.futures d.buf).1 = [] := pollFutures_resolved _ _ hfu
  have hrdy : (finishPass none (Conn.init script) d).2 = true := by
    rw [finishPass_snd, hpend, he]
    simp [flushCount, List.drop_length]
  have hp2 : Connection.poll svc none (Conn.init script)
      = .ok ((finishPass none (Conn.init script) d).1, true) := by
    rw [hp, ← hrdy]
  refine ⟨_, hp2, ?_⟩
  obtain ⟨h1, h2, h3⟩ := Connection.poll_true_shape hp2
  have hl := Connection.poll_ledger hp2
  rw [init_ledger] at hl
  rw [Conn.ledger, h1, h2, h3] at hl
  simpa using hl

/-- C5: in every session state reachable from a fresh session on a script,
every in-flight invocation has been polled only inside the context scope it
was dispatched with — every ambient context it ever observed is its own stored
scope — and that scope is exactly the one carried by its own originating
`Invoke` request of the script. -/
theorem C5_context_scope_per_invocation (svc : Service) (script : List DecoderEvent)
    (c' : Conn) (h : Reaches svc (Conn.init script) c') :
    ∀ inv ∈ c'.futures, (∀ a ∈ inv.future.observed, a = inv.ctx) ∧
      ∃ dl p, DecoderEvent.item (Request.invoke inv.seq dl inv.ctx p) ∈ script :=
  (reaches_ctxFaithful h ⟨fun _ hx => hx, by simp [Conn.init]⟩).2

/-- C6: an invocation poll either stays pending or resolves to a terminal
value carrying its own `seq`; it never yields an error of its own future type
— a handler error is converted into `(seq, Err e)`; each invocation yields
exactly one terminal value (one buffered response per removed invocation); and
a pass over a frame-error-free script never fails the session, whatever the
handler outcomes. -/
theorem C6_invocation_terminal_behaviour (svc : Service) :
    (∀ inv : Invocation, (∃ inv', inv.poll = .notReady inv') ∨
        ∃ r, inv.poll = .ready inv.seq r) ∧
      (∀ (inv : Invocation) (e : Nat), inv.future.fuel = 0 →
        inv.future.res inv.ctx = .error e →
        inv.poll = .ready inv.seq (.error e)) ∧
      (∀ (f : List Invocation) (b : List Response),
        (pollFutures f b).2.length + (pollFutures f b).1.length
          = b.length + f.length) ∧
      (∀ (cap : Option Nat) (c : Conn), (∀ ev ∈ c.script, ev.isFrame = false) →
        ∃ c' r, Connection.poll svc cap c = .ok (c', r)) := by
  refine ⟨?_, ?_, pollFutures_count, ?_⟩
  · intro inv
    rcases Invocation.poll_spec inv with ⟨n, _, hp⟩ | ⟨_, hp⟩
    · exact Or.inl ⟨_, hp⟩
    · exact Or.inr ⟨_, hp⟩
  · intro inv e h0 hres
    rcases Invocation.poll_spec inv with ⟨n, hn, _⟩ | ⟨_, hp⟩
    · exact absurd (h0.symm.trans hn) (by omega)
    · rw [hp, hres]
  · intro cap c hnfr
    obtain ⟨d, hd⟩ := pollDecoder_ok_of_noframe svc c.futures c.encBuf
      (firstFrame_eq_none hnfr)
    exact ⟨_, _, Connection.poll_ok cap hd⟩

/-- C7: a scheduling pass reports ready exactly when, in that same pass, the
decode half signalled stream end, the in-flight invocation set it leaves is
empty, and the encode buffer it leaves is fully flushed; if any of the three
phases has outstanding work, the pass reports not-ready. -/
theorem C7_ready_iff_all_phases_done (svc : Service) (cap : Option Nat)
    (c c' : Conn) (rdy : Bool) (h : Connection.poll svc cap c = .ok (c', rdy)) :
    rdy = true ↔ decodeAtEof svc c ∧ c'.futures = [] ∧ c'.encBuf = [] := by
  cases hd : pollDecoder svc c.script c.futures c.encBuf with
  | error e => rw [Connection.poll_error hd] at h; cases h
  | ok d =>
    rw [Connection.poll_ok cap hd] at h
    injection h with h
    have hc' : c' = (finishPass cap c d).1 := by rw [h]
    have hr : rdy = (finishPass cap c d).2 := by rw [h]
    subst hc'
    rw [hr, finishPass_snd]
    constructor
    · intro hb
      rw [Bool.and_eq_true, Bool.and_eq_true] at hb
      obtain ⟨⟨heof, hfut⟩, henc⟩ := hb
      exact ⟨⟨d, hd, heof⟩,
        by rw [finishPass_futures]; exact List.isEmpty_iff.mp hfut,
        by rw [finishPass_encBuf]; exact List.isEmpty_iff.mp henc⟩
    · rintro ⟨⟨d2, hd2, he2⟩, hfut, henc⟩
      rw [hd] at hd2
      injection hd2 with hd2
      subst hd2
      rw [finishPass_futures] at hfut
      rw [finishPass_encBuf] at henc
      simp [he2, hfut, henc]

/-- C8: the deadline carried by an `Invoke` is advisory only: the session never
reads it, so two scripts equal up to their deadline fields produce identical
observable behaviour — same completion or failure, same error, and the same
flushed responses — for every flush-capacity schedule and fuel; in particular
no handler is preempted or aborted for overrunning its deadline. -/
theorem C8_deadline_advisory (svc : Service) (script₁ script₂ : List DecoderEvent)
    (h : script₁.map DecoderEvent.stripDl = script₂.map DecoderEvent.stripDl) :
    ∀ (caps : List (Option Nat)) (n : Nat),
      (run svc caps n (Conn.init script₁)).obs
        = (run svc caps n (Conn.init script₂)).obs := by
  intro caps n
  have h1 := run_strip_obs svc n caps (Conn.init script₁)
  have h2 := run_strip_obs svc n caps (Conn.init script₂)
  have hs : (Conn.init script₁).strip = (Conn.init script₂).strip := by
    simp [Conn.strip, Conn.init, h]
  rw [← h1, ← h2, hs]

/-- C9: when the handler factory fails for an accepted connection the listener
logs the error and discards only that connection; it keeps accepting and
serving every later connection — the record of connection `k` depends only on
connection `k`'s own event — and a factory failure never terminates the
listener: with no source failure it finishes only by source exhaustion. -/
theorem C9_factory_failure_isolated (events : List SrcEvent)
    (hok : ∀ ev ∈ events, ev.isSrcErr = false) :
    (serverPoll events).2 = .ok () ∧
      (serverPoll events).1 = events.map SrcEvent.record ∧
      ∀ (k : Nat) (f : Except Nat Service) (s : List DecoderEvent)
        (cp : List (Option Nat)) (fl : Nat),
        events[k]? = some (.conn f s cp fl) →
        (serverPoll events).1[k]? = some (handleConn f s cp fl) := by
  have hmain : ∀ evs : List SrcEvent, (∀ ev ∈ evs, ev.isSrcErr = false) →
      (serverPoll evs).2 = .ok () ∧ (serverPoll evs).1 = evs.map SrcEvent.record := by
    intro evs
    induction evs with
    | nil => exact fun _ => ⟨rfl, rfl⟩
    | cons ev rest ih =>
      intro hok2
      cases ev with
      | conn f s cp fl =>
        obtain ⟨h2, h1⟩ := ih fun x hx => hok2 x (List.mem_cons_of_mem _ hx)
        exact ⟨by simpa [serverPoll] using h2,
          by simp [serverPoll, SrcEvent.record, h1]⟩
      | srcErr e => simpa [SrcEvent.isSrcErr] using hok2 _ (List.mem_cons_self _ _)
  obtain ⟨h2, h1⟩ := hmain events hok
  refine ⟨h2, h1, ?_⟩
  intro k f s cp fl hk
  rw [h1, List.getElem?_map, hk]
  rfl

/-- C10: a frame error from the decode phase propagates out of the session's
poll before the dispatch-completion and encode phases of that pass run, and
after the failure no flush is ever attempted: every response still buffered at
the failing pass — ping replies and user-error replies enqueued earlier
included — is dropped and never appears among the flushed responses. -/
theorem C10_frame_error_before_flush (svc : Service) :
    (∀ (cap : Option Nat) (c : Conn) (e : Nat),
        pollDecoder svc c.script c.futures c.encBuf = .error e →
        Connection.poll svc cap c = .error e) ∧
      ∀ (script : List DecoderEvent) (caps : List (Option Nat)) (n e : Nat)
        (cf : Conn), (script.filterMap DecoderEvent.key).Nodup →
        run svc caps n (Conn.init script) = .failed e cf →
        ∀ r ∈ cf.encBuf, r ∉ cf.sent := by
  exact ⟨fun cap c e hd => Connection.poll_error hd,
    fun script caps n e cf hk hr => nodup_sent_encBuf (run_failed_nodup hk hr)⟩

/-- A handler whose futures all resolve on their first poll, succeeding with
the payload plus the ambient deadline. -/
def svc0 : Service :=
  ⟨fun _ => 0, fun p c => .ok (p + c.deadline)⟩

/-- A handler whose future for payload `p` takes `p` polls and then succeeds
for even payloads and fails for odd ones. -/
def svc1 : Service :=
  ⟨fun p => p,
   fun p c => if p % 2 = 0 then .ok (p + c.deadline) else .error (p + c.meta)⟩

/-- A sample context scope. -/
def ctxA : Context := ⟨10, 1⟩

/-- A sample script interleaving pings, an invoke and a pause. -/
def scriptC1 : List DecoderEvent :=
  [.item (.ping 1), .item (.invoke 2 99 ctxA 3), .notReady, .item (.ping 4)]

theorem C1_witness :
    ∃ n c', run svc1 [] n (Conn.init scriptC1) = .done c' ∧
      (↑(c'.sent.map Response.key) : Multiset (Bool × Nat))
        = ↑(scriptC1.filterMap DecoderEvent.key) ∧
      (∀ sq, DecoderEvent.item (Request.ping sq) ∈ scriptC1 →
        c'.sent.count (Response.ping sq) = 1) ∧
      (∀ sq dl ctx p, DecoderEvent.item (Request.invoke sq dl ctx p) ∈ scriptC1 →
        c'.sent.count (Response.invoke sq (svc1.res p ctx)) = 1) :=
  C1_one_response_per_request svc1 scriptC1 (by decide) (by decide)

/-- A frame-error-free script portion preceding a frame error. -/
def preC2 : List DecoderEvent :=
  [.item (.ping 1), .item (.invoke 2 5 ctxA 3), .notReady]

/-- A script portion following a frame error. -/
def postC2 : List DecoderEvent := [.item (.ping 7)]

theorem C2_witness :
    ∃ n cf, run svc1 [] n (Conn.init (preC2 ++ .frameErr 42 :: postC2))
        = .failed 42 cf ∧
      (∀ inv ∈ cf.futures, ∀ r, Response.invoke inv.seq r ∉ cf.sent) ∧
      (∀ sq dl ctx p, DecoderEvent.item (Request.invoke sq dl ctx p) ∈ cf.script →
        ∀ r, Response.invoke sq r ∉ cf.sent) :=
  C2_frame_error_terminates svc1 preC2 postC2 42 (by decide) (by decide)

/-- A script with a user decode error between two pings. -/
def scriptC3 : List DecoderEvent :=
  [.item (.ping 1), .userErr 2 9, .item (.ping 3)]

theorem C3_witness :
    ∃ n c', run svc1 [] n (Conn.init scriptC3) = .done c' ∧
      c'.sent.count (Response.invoke 2 (Except.error 9)) = 1 ∧
      ∀ ev ∈ scriptC3, ∀ r, svc1.expected ev = some r → r ∈ c'.sent :=
  C3_user_error_recovered svc1 scriptC3 2 9 (by decide) (by decide) (by decide)

/-- A script of two requests whose handler futures resolve immediately. -/
def scriptC4 : List DecoderEvent :=
  [.item (.ping 1), .item (.invoke 2 77 ctxA 4)]

theorem C4_witness :
    ∃ c', Connection.poll svc0 none (Conn.init scriptC4) = .ok (c', true) ∧
      (↑c'.sent : Multiset Response) = ↑(scriptC4.filterMap svc0.expected) :=
  C4_phases_in_order_same_pass svc0 scriptC4 (by decide) (by decide)

/-- A script dispatching one slow invocation and then pausing. -/
def scriptC5 : List DecoderEvent := [.item (.invoke 1 5 ctxA 3), .notReady]

/-- The session state after one scheduling pass on `scriptC5`: one invocation
is in flight, already polled once inside its own context scope. -/
def connC5 : Conn :=
  match Connection.poll svc1 none (Conn.init scriptC5) with
  | .ok (c, _) => c
  | .error _ => Conn.init scriptC5

/-- The one in-flight invocation of `connC5`: polled once, with both its
creation and its first poll recorded inside its own context scope. -/
def invC5 : Invocation := ⟨1, ⟨2, svc1.res 3, [ctxA, ctxA]⟩, ctxA⟩

theorem C5_witness :
    (∀ a ∈ invC5.future.observed, a = invC5.ctx) ∧
      ∃ dl p, DecoderEvent.item (Request.invoke invC5.seq dl invC5.ctx p) ∈ scriptC5 :=
  C5_context_scope_per_invocation svc1 scriptC5 connC5
    (Reaches.step none (by rfl) (Reaches.refl _)) invC5
    (by rw [show connC5.futures = [invC5] from rfl]; exact List.mem_cons_self _ _)

/-- An invocation whose handler future fails immediately. -/
def invC6 : Invocation := ⟨5, ⟨0, fun _ => .error 9, []⟩, ctxA⟩

theorem C6_witness :
    invC6.poll = .ready invC6.seq (.error 9) ∧
      ∃ c' r, Connection.poll svc0 none
          (Conn.init [.item (.ping 1)]) = .ok (c', r) :=
  ⟨(C6_invocation_terminal_behaviour svc0).2.1 invC6 9 rfl rfl,
    (C6_invocation_terminal_behaviour svc0).2.2.2 none
      (Conn.init [.item (.ping 1)]) (by decide)⟩

/-- A one-ping script that completes in a single pass. -/
def scriptC7 : List DecoderEvent := [.item (.ping 1)]

/-- The session state after the single pass on `scriptC7`. -/
def connC7 : Conn :=
  match Connection.poll svc0 none (Conn.init scriptC7) with
  | .ok (c, _) => c
  | .error _ => Conn.init scriptC7

theorem C7_witness :
    true = true ↔ decodeAtEof svc0 (Conn.init scriptC7) ∧
      connC7.futures = [] ∧ connC7.encBuf = [] :=
  C7_ready_iff_all_phases_done svc0 none (Conn.init scriptC7) connC7 true (by rfl)

/-- Two scripts differing only in the advisory deadline of one invoke. -/
def scriptC8a : List DecoderEvent := [.item (.invoke 1 100 ctxA 2), .notReady]

/-- The same script with a different advisory deadline. -/
def scriptC8b : List DecoderEvent := [.item (.invoke 1 7 ctxA 2), .notReady]

theorem C8_witness :
    (run svc1 [] 5 (Conn.init scriptC8a)).obs
      = (run svc1 [] 5 (Conn.init scriptC8b)).obs :=
  C8_deadline_advisory svc1 scriptC8a scriptC8b (by decide) [] 5

/-- A connection source: the first connection's handler factory fails, the
second one's succeeds. -/
def eventsC9 : List SrcEvent :=
  [.conn (.error 5) [] [] 1,
   .conn (.ok svc0) [.item (.ping 1)] [] 3]

theorem C9_witness :
    (serverPoll eventsC9).2 = .ok () ∧
      (serverPoll eventsC9).1 = eventsC9.map SrcEvent.record ∧
      ∀ (k : Nat) (f : Except Nat Service) (s : List DecoderEvent)
        (cp : List (Option Nat)) (fl : Nat),
        eventsC9[k]? = some (.conn f s cp fl) →
        (serverPoll eventsC9).1[k]? = some (handleConn f s cp fl) :=
  C9_factory_failure_isolated eventsC9 (by decide)

/-- A script whose ping reply stays buffered (zero flush capacity) before a
frame error arrives. -/
def scriptC10 : List DecoderEvent := [.item (.ping 1), .notReady, .frameErr 9]

/-- The state at the failing pass of `scriptC10` under a zero-capacity first
flush: the ping reply is still buffered, nothing was flushed. -/
def cfC10 : Conn :=
  match run svc0 [some 0] 2 (Conn.init scriptC10) with
  | .failed _ c => c
  | _ => Conn.init scriptC10

theorem C10_witness :
    Connection.poll svc0 none ⟨[.frameErr 7], [], [], []⟩ = .error 7 ∧
      ∀ r ∈ cfC10.encBuf, r ∉ cfC10.sent :=
  ⟨(C10_frame_error_before_flush svc0).1 none ⟨[.frameErr 7], [], [], []⟩ 7 rfl,
    (C10_frame_error_before_flush svc0).2 scriptC10 [some 0] 2 9 cfC10
      (by decide) (by rfl)⟩

end AwsLambdaRuntime
